import Mathlib

/-!
Verification development for the GOST R 34.10-2001/2012 elliptic-curve
signature core (`gost_ec_sign.c`).

The external big-integer / elliptic-curve library (OpenSSL BN / EC) is the
trusted primitive layer.  Points of the cyclic subgroup generated by the
base point `G` of prime order `q` are represented by their discrete
logarithm, an element of `ZMod q`; scalar multiplication `k·G` is the cast
of `k` into `ZMod q`, and the two-scalar multiplication `z1·G + z2·Q` is
`z1 + z2 * Q` there.  The affine x-coordinate extraction is an arbitrary
function `xc : ZMod q → Nat` (it is a parameter of every definition), and
`EC_POINT_get_affine_coordinates_GFp` fails exactly on the point at
infinity, i.e. on `0 : ZMod q`.  Big integers are `Nat`; `BN_mod`,
`BN_mod_mul`, `BN_mod_add`, `BN_nnmod` are `%`-arithmetic; `BN_num_bits`
is `numBits`; `BN_mod_inverse` is `modInverse`.  The random source is an
explicit list of draws (each successful `BN_rand_range` call consumes one
element; an empty list models a failing source).  `OPENSSL_assert`
failures abort the process; they are modelled as a distinguished
`abortAssert` outcome, separate from every error return.
-/

/-- Fuel-driven helper for `numBits`; with fuel at least `n` it computes the
bit length of `n` (the number of binary digits, 0 for 0). -/
def numBitsAux : Nat → Nat → Nat
  | 0, _ => 0
  | fuel + 1, n => if n = 0 then 0 else numBitsAux fuel (n / 2) + 1

/-- Bit length of a natural number, as computed by OpenSSL `BN_num_bits`:
`numBits 0 = 0`, and `2 ^ (numBits n - 1) ≤ n < 2 ^ numBits n` for `n ≠ 0`. -/
def numBits (n : Nat) : Nat := numBitsAux n n

/-- Big-endian interpretation of a byte buffer as a magnitude integer
(`getbnfrombuf` / `BN_bin2bn`). -/
def bytesToNatBE (l : List Nat) : Nat := l.foldl (fun acc b => acc * 256 + b) 0

/-- Little-endian value of a byte sequence (the specified reading of a GOST
digest). -/
def bytesToNatLE : List Nat → Nat
  | [] => 0
  | b :: t => b + 256 * bytesToNatLE t

/-- `hashsum2bn` (gost_ec_sign.c lines 27-39): reverse the digest bytes into
a 64-byte buffer and parse big-endian; `none` (NULL) when the digest is
longer than the 64-byte buffer. -/
def hashsum2bn (dgst : List Nat) : Option Nat :=
  if dgst.length > 64 then none else some (bytesToNatBE dgst.reverse)

/-- Error conditions raised through `GOSTerr` / the OpenSSL error queue.
`invalidInput` is never produced by this file's code; it is the error kind
the design documentation assigns to malformed digests. -/
inductive GostErr where
  | mallocFailure
  | internalError
  | ecLib
  | rngError
  | sigPartsGreaterThanQ
  | sigMismatch
  | invalidInput
  deriving DecidableEq, Repr

/-- Outcome of `gost_ec_sign`: a `DSA_SIG` pair, a NULL return with an error
code, or a process abort from a failed `OPENSSL_assert`. -/
inductive SignResult where
  | ok (r s : Nat)
  | err (g : GostErr)
  | abortAssert
  deriving DecidableEq, Repr

/-- Outcome of `gost_ec_verify`: 1, or 0 with an error code, or a process
abort from a failed `OPENSSL_assert`. -/
inductive VerifyResult where
  | valid
  | err (g : GostErr)
  | abortAssert
  deriving DecidableEq, Repr

/-- The observable state of an `EC_KEY` for this module: whether a group is
attached (its order is the ambient `q`), the private scalar, and the public
point (as an element of the subgroup generated by `G`). -/
structure ECKey (q : Nat) where
  hasGroup : Bool
  priv : Option Nat
  pub : Option (ZMod q)

/-- Nonce blinding (gost_ec_sign.c lines 224-231): add the order to `k`;
if the bit length still does not exceed the bit length of the order, add
the order once more. -/
def blind (q k : Nat) : Nat :=
  if numBits (k + q) ≤ numBits q then k + q + q else k + q

/-- `BN_mod_inverse e q`: the inverse of `e` modulo `q` when it exists
(`gcd e q = 1`), and `none` (NULL return) when it does not.  Modulo 1
everything inverts to 0. -/
def modInverse (e q : Nat) : Option Nat :=
  if q = 1 then some 0 else (List.range q).find? (fun v => e * v % q = 1)

/-- Digest-to-scalar reduction as performed by `gost_ec_sign`
(lines 175-180 for `hashsum2bn`, 196-200 for `BN_mod`, 208-210 for the
zero fix-up): a NULL from `hashsum2bn` is a malloc failure, a failing
`BN_mod` (order zero) an internal error, and a zero reduced digest is
replaced by 1. -/
def sign_digest_to_e (q : Nat) (dgst : List Nat) : Except GostErr Nat :=
  match hashsum2bn dgst with
  | none => .error .mallocFailure
  | some md =>
    if q = 0 then .error .internalError
    else if md % q = 0 then .ok 1 else .ok (md % q)

/-- Digest-to-scalar reduction as performed by `gost_ec_verify`
(lines 349-353 for `hashsum2bn` and `BN_mod`, 360-363 for the zero
fix-up): a NULL from `hashsum2bn` is an internal error here, a failing
`BN_mod` (order zero) an internal error, and a zero reduced digest is
replaced by 1. -/
def verify_digest_to_e (q : Nat) (dgst : List Nat) : Except GostErr Nat :=
  match hashsum2bn dgst with
  | none => .error .internalError
  | some md =>
    if q = 0 then .error .internalError
    else if md % q = 0 then .ok 1 else .ok (md % q)

/-- The candidate `r` of one signing iteration (gost_ec_sign.c lines
232-252): the affine x-coordinate of `C = k·G` (computed with the blinded
scalar) reduced modulo the order by `BN_nnmod`. -/
def signR (q : Nat) (xc : ZMod q → Nat) (k : Nat) : Nat :=
  xc ((blind q k : Nat) : ZMod q) % q

/-- The candidate `s` of one signing iteration (gost_ec_sign.c lines
255-272): `s = (priv·r + k·e) mod q`, assembled from `BN_mod_mul` twice and
`BN_mod_add`; `k` here is the blinded scalar, as in the source. -/
def signS (q : Nat) (d e k r : Nat) : Nat :=
  (d * r % q + blind q k * e % q) % q

/-- The signing retry loops (gost_ec_sign.c lines 218-274), with the random
draws supplied as a list: each iteration consumes a draw `k` (an exhausted
list models `BN_rand_range` failure), blinds it, computes `C = k·G`, takes
the affine x-coordinate (failing on the point at infinity), reduces it to
`r`, retries on `r = 0`, computes `s = (priv·r + k·e) mod q`, retries on
`s = 0`, and otherwise returns the signature. -/
def signLoop (q : Nat) (xc : ZMod q → Nat) (d e : Nat) (key : ECKey q) :
    List Nat → SignResult × ECKey q
  | [] => (.err .rngError, key)
  | k :: rest =>
    if ((blind q k : Nat) : ZMod q) = 0 then (.err .ecLib, key)
    else if signR q xc k = 0 then signLoop q xc d e key rest
    else if signS q d e k (signR q xc k) = 0 then signLoop q xc d e key rest
    else (.ok (signR q xc k) (signS q d e k (signR q xc k)), key)

/-- `gost_ec_sign` (gost_ec_sign.c lines 154-295).  The digest length is
asserted to be 32 or 64 (line 174), the digest converted (line 175), the
group, order and private key fetched (lines 181-195), the reduced digest
computed (lines 196-210), and the retry loop run (lines 218-283). -/
def gost_ec_sign (q : Nat) (xc : ZMod q → Nat) (dgst : List Nat)
    (key : ECKey q) (draws : List Nat) : SignResult × ECKey q :=
  if ¬ (dgst.length = 32 ∨ dgst.length = 64) then (.abortAssert, key)
  else
    match hashsum2bn dgst with
    | none => (.err .mallocFailure, key)
    | some _ =>
      if ¬ key.hasGroup then (.err .internalError, key)
      else
        match key.priv with
        | none => (.err .internalError, key)
        | some d =>
          match sign_digest_to_e q dgst with
          | .error g => (.err g, key)
          | .ok e => signLoop q xc d e key draws

/-- The verification point `C = z1·G + z2·Q` of `gost_ec_verify`
(gost_ec_sign.c lines 364-387): `v` is the inverse of the reduced digest,
`z1 = (s·v) mod q`, `z2 = ((q − r)·v) mod q` (the `BN_sub` of the order and
`r` followed by `BN_mod_mul`), and the point is formed by the two-scalar
`EC_POINT_mul`. -/
def verifyCd (q : Nat) (sigr sigs v : Nat) (Qd : ZMod q) : ZMod q :=
  ((sigs : Nat) : ZMod q) * ((v : Nat) : ZMod q) +
    ((q - sigr : Nat) : ZMod q) * ((v : Nat) : ZMod q) * Qd

/-- `gost_ec_verify` (gost_ec_sign.c lines 301-416).  The group presence is
asserted (line 314), the public key fetched (lines 335-339), the range
check performed (lines 341-346; note `BN_cmp(x, order) >= 1` holds exactly
when `x` is strictly greater than the order), the digest length asserted
(line 348), the reduced digest and its inverse computed (lines 349-364),
`z1`, `z2`, the point `C = z1·G + z2·Q` and `R = x(C) mod q` computed
(lines 365-395), and `R` compared with `r` (lines 403-407). -/
def gost_ec_verify (q : Nat) (xc : ZMod q → Nat) (dgst : List Nat)
    (sigr sigs : Nat) (key : ECKey q) : VerifyResult × ECKey q :=
  if ¬ key.hasGroup then (.abortAssert, key)
  else
    match key.pub with
    | none => (.err .internalError, key)
    | some Qd =>
      if sigs = 0 ∨ sigr = 0 ∨ sigs > q ∨ sigr > q then
        (.err .sigPartsGreaterThanQ, key)
      else if ¬ (dgst.length = 32 ∨ dgst.length = 64) then (.abortAssert, key)
      else
        match verify_digest_to_e q dgst with
        | .error g => (.err g, key)
        | .ok e =>
          match modInverse e q with
          | none => (.err .internalError, key)
          | some v =>
            if verifyCd q sigr sigs v Qd = 0 then (.err .ecLib, key)
            else if xc (verifyCd q sigr sigs v Qd) % q ≠ sigr then
              (.err .sigMismatch, key)
            else (.valid, key)

/-- `gost_ec_compute_public` (gost_ec_sign.c lines 423-470): derive the
public point from the stored private scalar by `Q = d·G` and store it.
`mulOk` is the success of the underlying `EC_POINT_mul`; when it fails the
function reports failure and stores nothing. -/
def gost_ec_compute_public (q : Nat) (mulOk : Bool) (key : ECKey q) :
    Bool × ECKey q :=
  if ¬ key.hasGroup then (false, key)
  else
    match key.priv with
    | none => (false, key)
    | some d =>
      if ¬ mulOk then (false, key)
      else (true, { key with pub := some ((d : Nat) : ZMod q) })

/-- The key-generation draw loop (gost_ec_sign.c lines 501-507): redraw
while the drawn scalar is zero; an exhausted draw list models
`BN_rand_range` failure. -/
def drawNonzero : List Nat → Option Nat
  | [] => none
  | k :: rest => if k = 0 then drawNonzero rest else some k

/-- `gost_ec_keygen` (gost_ec_sign.c lines 478-522): draw a nonzero private
scalar, store it with `EC_KEY_set_private_key`, then derive the public
point with `gost_ec_compute_public` (line 521); `mulOk` is passed through
to the latter. -/
def gost_ec_keygen (q : Nat) (mulOk : Bool) (key : ECKey q)
    (draws : List Nat) : Bool × ECKey q :=
  if ¬ key.hasGroup then (false, key)
  else
    match drawNonzero draws with
    | none => (false, key)
    | some d => gost_ec_compute_public q mulOk { key with priv := some d }

/-- Concrete x-coordinate function on a toy group of order 5, used to
instantiate the abstract curve in witnesses and counterexamples. -/
def xc5 : ZMod 5 → Nat := fun p => p.val

/-- A 32-byte all-zero digest. -/
def dgst32 : List Nat := List.replicate 32 0

/-- A toy signing key over the order-5 group: private scalar 2. -/
def skey5 : ECKey 5 := ⟨true, some 2, none⟩

/-- A toy verification key over the order-5 group: public point `2·G`. -/
def vkey5 : ECKey 5 := ⟨true, none, some 2⟩

/-- A toy key holding stale material, used to exercise `gost_ec_keygen`
failure behaviour. -/
def gkey5 : ECKey 5 := ⟨true, some 4, some 1⟩

/-- With enough fuel, `numBitsAux` computes the bit length: it is at most
`e` exactly when the number is below `2 ^ e`. -/
theorem numBitsAux_le_iff :
    ∀ fuel n : Nat, n ≤ fuel → ∀ e : Nat, (numBitsAux fuel n ≤ e ↔ n < 2 ^ e) := by
  intro fuel
  induction fuel with
  | zero =>
    intro n hn e
    have hn0 : n = 0 := Nat.le_zero.mp hn
    subst hn0
    simp only [numBitsAux, true_iff, Nat.zero_le]
    exact pow_pos (by norm_num : (0 : Nat) < 2) e
  | succ fuel ih =>
    intro n hn e
    by_cases h0 : n = 0
    · subst h0
      rw [show numBitsAux (fuel + 1) 0 = 0 from rfl]
      simp only [true_iff, Nat.zero_le]
      exact pow_pos (by norm_num : (0 : Nat) < 2) e
    · have hrec : n / 2 ≤ fuel := by omega
      simp only [numBitsAux, if_neg h0]
      cases e with
      | zero =>
        simp only [pow_zero]
        constructor
        · omega
        · intro h; omega
      | succ e =>
        rw [Nat.succ_le_succ_iff, ih (n / 2) hrec e, pow_succ]
        exact Nat.div_lt_iff_lt_mul (by norm_num)

/-- `numBits n ≤ e` exactly when `n < 2 ^ e`. -/
theorem numBits_le_iff (n e : Nat) : numBits n ≤ e ↔ n < 2 ^ e :=
  numBitsAux_le_iff n n le_rfl e

/-- `e < numBits n` exactly when `2 ^ e ≤ n`. -/
theorem lt_numBits_iff (n e : Nat) : e < numBits n ↔ 2 ^ e ≤ n := by
  rw [← not_le, numBits_le_iff, not_lt]

/-- The blinded scalar is the draw plus the order once or twice. -/
theorem blind_eq_or (q k : Nat) : blind q k = k + q ∨ blind q k = k + 2 * q := by
  unfold blind
  split_ifs
  · right; omega
  · left; rfl

/-- Blinding does not change the residue modulo the order. -/
theorem blind_mod (q k : Nat) : blind q k % q = k % q := by
  unfold blind
  split_ifs
  · rw [Nat.add_mod_right, Nat.add_mod_right]
  · rw [Nat.add_mod_right]

/-- Blinding does not change the subgroup element, hence not the point
`k·G`. -/
theorem blind_cast (q k : Nat) :
    ((blind q k : Nat) : ZMod q) = ((k : Nat) : ZMod q) := by
  rw [← ZMod.natCast_mod (blind q k) q, blind_mod, ZMod.natCast_mod]

/-- A positive number has a positive bit length. -/
theorem numBits_pos (q : Nat) (hq : 1 ≤ q) : 1 ≤ numBits q :=
  (lt_numBits_iff q 0).mpr (by simpa using hq)

/-- The bit length of the blinded scalar strictly exceeds the bit length of
the order. -/
theorem numBits_blind_gt (q k : Nat) (hq : 1 ≤ q) :
    numBits q < numBits (blind q k) := by
  unfold blind
  split_ifs with h
  · rw [lt_numBits_iff]
    have hB : 1 ≤ numBits q := numBits_pos q hq
    have h1 : 2 ^ (numBits q - 1) ≤ q := (lt_numBits_iff q (numBits q - 1)).mp (by omega)
    have hB1 : numBits q - 1 + 1 = numBits q := by omega
    have h2 : 2 ^ numBits q ≤ q * 2 := by
      calc 2 ^ numBits q = 2 ^ (numBits q - 1) * 2 := by rw [← pow_succ, hB1]
        _ ≤ q * 2 := Nat.mul_le_mul_right 2 h1
    omega
  · exact not_le.mp h

/-- Reversed big-endian parsing is little-endian interpretation. -/
theorem bytesToNatBE_reverse (l : List Nat) :
    bytesToNatBE l.reverse = bytesToNatLE l := by
  induction l with
  | nil => rfl
  | cons b t ih =>
    have happ : bytesToNatBE (t.reverse ++ [b]) = bytesToNatBE t.reverse * 256 + b := by
      unfold bytesToNatBE
      rw [List.foldl_append]
      rfl
    rw [List.reverse_cons, happ, ih]
    simp only [bytesToNatLE]
    omega

/-- On digests that fit the 64-byte buffer, `hashsum2bn` succeeds and
returns the little-endian value of the digest. -/
theorem hashsum2bn_eq (dgst : List Nat) (h : dgst.length ≤ 64) :
    hashsum2bn dgst = some (bytesToNatLE dgst) := by
  unfold hashsum2bn
  rw [if_neg (by omega), bytesToNatBE_reverse]

/-- On digests that fit the buffer, the signer's and the verifier's digest
reductions coincide. -/
theorem digest_agree (q : Nat) (dgst : List Nat) (h : dgst.length ≤ 64) :
    sign_digest_to_e q dgst = verify_digest_to_e q dgst := by
  unfold sign_digest_to_e verify_digest_to_e
  rw [hashsum2bn_eq dgst h]

/-- Closed form of the signer's digest reduction on valid input. -/
theorem sign_digest_to_e_eq (q : Nat) (dgst : List Nat) (h : dgst.length ≤ 64)
    (hq : q ≠ 0) :
    sign_digest_to_e q dgst =
      Except.ok (if bytesToNatLE dgst % q = 0 then 1 else bytesToNatLE dgst % q) := by
  unfold sign_digest_to_e
  rw [hashsum2bn_eq dgst h]
  dsimp only
  rw [if_neg hq]
  exact (apply_ite Except.ok _ _ _).symm

/-- Facts recoverable from a successful signer digest reduction: the order
is nonzero, the reduced digest is nonzero, and (for a group of order at
least 2) it is below the order. -/
theorem sign_digest_to_e_ok (q : Nat) (dgst : List Nat) (e : Nat)
    (h : sign_digest_to_e q dgst = Except.ok e) :
    q ≠ 0 ∧ e ≠ 0 ∧ (2 ≤ q → e < q) := by
  unfold sign_digest_to_e at h
  cases hmd : hashsum2bn dgst with
  | none => rw [hmd] at h; exact absurd h (by simp)
  | some md =>
    rw [hmd] at h
    dsimp only at h
    by_cases hq : q = 0
    · rw [if_pos hq] at h; exact absurd h (by simp)
    · rw [if_neg hq] at h
      split_ifs at h with h0
      · injection h with h1
        subst h1
        exact ⟨hq, by omega, fun h2 => by omega⟩
      · injection h with h1
        subst h1
        exact ⟨hq, h0, fun _ => Nat.mod_lt md (by omega)⟩

/-- A failing verifier digest reduction always reports an internal error. -/
theorem verify_digest_to_e_error (q : Nat) (dgst : List Nat) (g : GostErr)
    (h : verify_digest_to_e q dgst = Except.error g) :
    g = GostErr.internalError := by
  unfold verify_digest_to_e at h
  cases hmd : hashsum2bn dgst with
  | none => rw [hmd] at h; injection h with h1; exact h1.symm
  | some md =>
    rw [hmd] at h
    dsimp only at h
    split_ifs at h with h1 h2
    all_goals injection h with hinj
    exact hinj.symm

/-- A successful `modInverse` really is a modular inverse (orders at least
2). -/
theorem modInverse_some (e q v : Nat) (hq : 2 ≤ q) (h : modInverse e q = some v) :
    e * v % q = 1 := by
  unfold modInverse at h
  rw [if_neg (by omega)] at h
  simpa using List.find?_some h

/-- For an order of at least 2 and an argument coprime to it, `modInverse`
succeeds and returns an inverse. -/
theorem modInverse_exists (e q : Nat) (hq : 2 ≤ q) (hcop : Nat.Coprime e q) :
    ∃ v, modInverse e q = some v ∧ e * v % q = 1 := by
  haveI : NeZero q := ⟨by omega⟩
  have h1 : (e : ZMod q) * (e : ZMod q)⁻¹ = 1 := ZMod.coe_mul_inv_eq_one e hcop
  have hulr : ((((e : ZMod q)⁻¹).val : Nat) : ZMod q) = (e : ZMod q)⁻¹ :=
    ZMod.natCast_rightInverse _
  have hmod : e * ((e : ZMod q)⁻¹).val % q = 1 := by
    have h3 : ((e * ((e : ZMod q)⁻¹).val : Nat) : ZMod q) = 1 := by
      push_cast
      rw [hulr, h1]
    calc e * ((e : ZMod q)⁻¹).val % q
        = ZMod.val ((e * ((e : ZMod q)⁻¹).val : Nat) : ZMod q) := (ZMod.val_natCast _).symm
      _ = ZMod.val (1 : ZMod q) := by rw [h3]
      _ = 1 % q := ZMod.val_one_eq_one_mod q
      _ = 1 := Nat.mod_eq_of_lt (by omega)
  have hu_lt : ((e : ZMod q)⁻¹).val < q := ZMod.val_lt _
  unfold modInverse
  rw [if_neg (by omega)]
  cases hfind : (List.range q).find? (fun v => e * v % q = 1) with
  | none =>
    exfalso
    have hnone := List.find?_eq_none.mp hfind ((e : ZMod q)⁻¹).val
      (List.mem_range.mpr hu_lt)
    simp only [decide_eq_true_eq] at hnone
    exact hnone hmod
  | some v =>
    exact ⟨v, rfl, by simpa using List.find?_some hfind⟩

/-- The signing loop never writes to the key object. -/
theorem signLoop_key (q : Nat) (xc : ZMod q → Nat) (d e : Nat) (key : ECKey q)
    (draws : List Nat) : (signLoop q xc d e key draws).2 = key := by
  induction draws with
  | nil => rfl
  | cons k rest ih =>
    simp only [signLoop]
    split_ifs
    · rfl
    · exact ih
    · exact ih
    · rfl

/-- Inversion of a successful signing loop: some draw from the list
produced a non-infinite point, a nonzero `r` below the order, and a nonzero
`s` below the order, exactly through the `signR` / `signS` computations. -/
theorem signLoop_ok (q : Nat) (xc : ZMod q → Nat) (d e : Nat) (key : ECKey q)
    (hq : q ≠ 0) :
    ∀ (draws : List Nat) (r s : Nat),
      (signLoop q xc d e key draws).1 = SignResult.ok r s →
      ∃ k, k ∈ draws ∧ ((k : Nat) : ZMod q) ≠ 0 ∧
        r = signR q xc k ∧ r ≠ 0 ∧ r < q ∧
        s = signS q d e k r ∧ s ≠ 0 ∧ s < q := by
  intro draws
  induction draws with
  | nil => intro r s h; exact absurd h (by simp [signLoop])
  | cons k rest ih =>
    intro r s h
    simp only [signLoop] at h
    by_cases hC : ((blind q k : Nat) : ZMod q) = 0
    · rw [if_pos hC] at h
      exact absurd h (by simp)
    · rw [if_neg hC] at h
      by_cases hr : signR q xc k = 0
      · rw [if_pos hr] at h
        obtain ⟨k', hmem, hrest⟩ := ih r s h
        exact ⟨k', List.mem_cons_of_mem _ hmem, hrest⟩
      · rw [if_neg hr] at h
        by_cases hs : signS q d e k (signR q xc k) = 0
        · rw [if_pos hs] at h
          obtain ⟨k', hmem, hrest⟩ := ih r s h
          exact ⟨k', List.mem_cons_of_mem _ hmem, hrest⟩
        · rw [if_neg hs] at h
          have hrs : SignResult.ok (signR q xc k) (signS q d e k (signR q xc k))
              = SignResult.ok r s := h
          injection hrs with hr1 hs1
          subst hr1
          subst hs1
          refine ⟨k, List.mem_cons_self k rest, ?_, rfl, hr, ?_, rfl, hs, ?_⟩
          · rwa [blind_cast] at hC
          · exact Nat.mod_lt _ (Nat.pos_of_ne_zero hq)
          · exact Nat.mod_lt _ (Nat.pos_of_ne_zero hq)

/-- The `s` of the signing loop equals `(r·d + k·e) mod q` for the raw
(unblinded) draw `k`. -/
theorem signS_mod (q d e k r : Nat) : signS q d e k r = (r * d + k * e) % q := by
  unfold signS
  rw [← Nat.add_mod]
  have h2 : blind q k * e % q = k * e % q := by
    rw [Nat.mul_mod, blind_mod, ← Nat.mul_mod]
  rw [Nat.add_mod, h2, ← Nat.add_mod, Nat.mul_comm d r]

/-- Casting the signer's `s` into the subgroup scalar field. -/
theorem signS_cast (q d e k r : Nat) :
    ((signS q d e k r : Nat) : ZMod q)
      = (d : ZMod q) * (r : ZMod q) + (k : ZMod q) * (e : ZMod q) := by
  unfold signS
  rw [ZMod.natCast_mod, Nat.cast_add, ZMod.natCast_mod, ZMod.natCast_mod,
    Nat.cast_mul, Nat.cast_mul, blind_cast]

/-- The verification point recomputed on an honest signature is the
signer's ephemeral point `k·G`. -/
theorem verifyCd_eq (q d r e v k : Nat) (hrq : r ≤ q) (hev : e * v % q = 1) :
    verifyCd q r (signS q d e k r) v ((d : Nat) : ZMod q)
      = ((k : Nat) : ZMod q) := by
  unfold verifyCd
  have he1 : (e : ZMod q) * (v : ZMod q) = 1 := by
    have hh : (((e * v % q : Nat)) : ZMod q) = ((1 : Nat) : ZMod q) := by rw [hev]
    rwa [ZMod.natCast_mod, Nat.cast_mul, Nat.cast_one] at hh
  have hqr : ((q - r : Nat) : ZMod q) = - ((r : Nat) : ZMod q) := by
    rw [Nat.cast_sub hrq, ZMod.natCast_self, zero_sub]
  rw [signS_cast, hqr]
  linear_combination ((k : Nat) : ZMod q) * he1

/-- Inversion of a successful `gost_ec_sign`: the digest length was valid,
a private scalar was present, the digest reduction succeeded, and the loop
produced the signature. -/
theorem gost_ec_sign_ok_elim (q : Nat) (xc : ZMod q → Nat) (dgst : List Nat)
    (key : ECKey q) (draws : List Nat) (r s : Nat)
    (h : (gost_ec_sign q xc dgst key draws).1 = SignResult.ok r s) :
    (dgst.length = 32 ∨ dgst.length = 64) ∧
    ∃ d e, key.priv = some d ∧ sign_digest_to_e q dgst = Except.ok e ∧
      (signLoop q xc d e key draws).1 = SignResult.ok r s := by
  unfold gost_ec_sign at h
  by_cases hlen : dgst.length = 32 ∨ dgst.length = 64
  · refine ⟨hlen, ?_⟩
    rw [if_neg (not_not_intro hlen)] at h
    cases hmd : hashsum2bn dgst with
    | none => rw [hmd] at h; exact absurd h (by simp)
    | some md =>
      rw [hmd] at h
      dsimp only at h
      by_cases hg : key.hasGroup
      · rw [if_neg (not_not_intro hg)] at h
        cases hpriv : key.priv with
        | none => rw [hpriv] at h; exact absurd h (by simp)
        | some d =>
          rw [hpriv] at h
          dsimp only at h
          cases hde : sign_digest_to_e q dgst with
          | error g => rw [hde] at h; exact absurd h (by simp)
          | ok e =>
            rw [hde] at h
            exact ⟨d, e, rfl, rfl, h⟩
      · rw [if_pos hg] at h
        exact absurd h (by simp)
  · rw [if_pos hlen] at h
    exact absurd h (by simp)

/-- Reduction of `gost_ec_verify` on the path where the key is present, the
signature passes the range check, the digest has a valid length and
reduces successfully, and the inverse exists: the outcome is decided by
the recomputed point and its x-coordinate. -/
theorem gost_ec_verify_run (q : Nat) (xc : ZMod q → Nat) (dgst : List Nat)
    (key : ECKey q) (Qd : ZMod q) (r s e v : Nat)
    (hg : key.hasGroup = true) (hpub : key.pub = some Qd)
    (hr0 : r ≠ 0) (hs0 : s ≠ 0) (hrq : ¬ r > q) (hsq : ¬ s > q)
    (hlen : dgst.length = 32 ∨ dgst.length = 64)
    (he : verify_digest_to_e q dgst = Except.ok e)
    (hv : modInverse e q = some v) :
    (gost_ec_verify q xc dgst r s key).1 =
      (if verifyCd q r s v Qd = 0 then VerifyResult.err GostErr.ecLib
       else if xc (verifyCd q r s v Qd) % q ≠ r then
         VerifyResult.err GostErr.sigMismatch
       else VerifyResult.valid) := by
  unfold gost_ec_verify
  rw [hg, hpub]
  dsimp only
  rw [if_neg (by simp), if_neg (by simp [hr0, hs0, hrq, hsq]),
    if_neg (not_not_intro hlen), he]
  dsimp only
  rw [hv]
  dsimp only
  split_ifs <;> rfl

/-- C5: sign and verify derive the reduced digest identically — the digest
bytes are read little-endian (via byte reversal) into `md`, `e = md mod q`
with `e = 1` substituted for zero; for every 32- or 64-byte digest the
signer's and the verifier's `e` agree and are nonzero. -/
theorem digest_reduction_shared (q : Nat) (dgst : List Nat)
    (hlen : dgst.length = 32 ∨ dgst.length = 64) (hq : q ≠ 0) :
    hashsum2bn dgst = some (bytesToNatLE dgst) ∧
    sign_digest_to_e q dgst = verify_digest_to_e q dgst ∧
    ∃ e, sign_digest_to_e q dgst = Except.ok e ∧ e ≠ 0 ∧
      e = (if bytesToNatLE dgst % q = 0 then 1 else bytesToNatLE dgst % q) := by
  have h64 : dgst.length ≤ 64 := by rcases hlen with h | h <;> omega
  refine ⟨hashsum2bn_eq dgst h64, digest_agree q dgst h64, ?_⟩
  refine ⟨_, sign_digest_to_e_eq q dgst h64 hq, ?_, rfl⟩
  split_ifs with h0
  · exact one_ne_zero
  · exact h0

/-- C5 witness: the shared digest reduction, instantiated with the order-5
group and the all-zero 32-byte digest. -/
theorem digest_reduction_shared_inst :
    hashsum2bn dgst32 = some (bytesToNatLE dgst32) ∧
    sign_digest_to_e 5 dgst32 = verify_digest_to_e 5 dgst32 ∧
    ∃ e, sign_digest_to_e 5 dgst32 = Except.ok e ∧ e ≠ 0 ∧
      e = (if bytesToNatLE dgst32 % 5 = 0 then 1 else bytesToNatLE dgst32 % 5) :=
  digest_reduction_shared 5 dgst32 (by decide) (by decide)

/-- C6: for every draw `k` in `[0, q-1)` the scalar passed to the point
multiplication is `k + q`, or `k + 2q` exactly when the bit length of
`k + q` does not exceed the bit length of `q`; it is congruent to `k`
modulo `q` (so the point `k·G` is unchanged) and its bit length strictly
exceeds the bit length of `q`. -/
theorem nonce_blinding_spec (q k : Nat) (hk : k < q) :
    (blind q k = k + q ∨ blind q k = k + 2 * q) ∧
    (numBits (k + q) ≤ numBits q → blind q k = k + 2 * q) ∧
    (numBits q < numBits (k + q) → blind q k = k + q) ∧
    blind q k % q = k % q ∧
    ((blind q k : Nat) : ZMod q) = ((k : Nat) : ZMod q) ∧
    numBits q < numBits (blind q k) := by
  refine ⟨blind_eq_or q k, ?_, ?_, blind_mod q k, blind_cast q k,
    numBits_blind_gt q k (by omega)⟩
  · intro h
    unfold blind
    rw [if_pos h]
    omega
  · intro h
    unfold blind
    rw [if_neg (not_le.mpr h)]

/-- C6 witness: the blinding property instantiated at order 5 with draw 3. -/
theorem nonce_blinding_spec_inst :
    (blind 5 3 = 3 + 5 ∨ blind 5 3 = 3 + 2 * 5) ∧
    (numBits (3 + 5) ≤ numBits 5 → blind 5 3 = 3 + 2 * 5) ∧
    (numBits 5 < numBits (3 + 5) → blind 5 3 = 3 + 5) ∧
    blind 5 3 % 5 = 3 % 5 ∧
    ((blind 5 3 : Nat) : ZMod 5) = ((3 : Nat) : ZMod 5) ∧
    numBits 5 < numBits (blind 5 3) :=
  nonce_blinding_spec 5 3 (by decide)

/-- C7 counterexample: on a 1-byte digest, `gost_ec_sign` does not return an
`InvalidInput` error to the caller — it trips the `OPENSSL_assert` and the
process aborts. -/
theorem wrong_length_not_invalid_input :
    (gost_ec_sign 5 xc5 [0] skey5 []).1 = SignResult.abortAssert ∧
    (gost_ec_sign 5 xc5 [0] skey5 []).1 ≠ SignResult.err GostErr.invalidInput := by
  decide

/-- C7 amended: a digest whose length is neither 32 nor 64 makes
`gost_ec_sign` hit its length assertion (process abort) before any
arithmetic, and makes `gost_ec_verify` hit its length assertion too — but
only after the signature range check has passed; neither function returns
an `InvalidInput` error value. -/
theorem wrong_length_assertion (q : Nat) (xc : ZMod q → Nat) (dgst : List Nat)
    (skey vkey : ECKey q) (draws : List Nat) (Qd : ZMod q) (r s : Nat)
    (hlen : ¬ (dgst.length = 32 ∨ dgst.length = 64)) :
    (gost_ec_sign q xc dgst skey draws).1 = SignResult.abortAssert ∧
    (vkey.hasGroup = true → vkey.pub = some Qd →
      r ≠ 0 → s ≠ 0 → r ≤ q → s ≤ q →
      (gost_ec_verify q xc dgst r s vkey).1 = VerifyResult.abortAssert) := by
  constructor
  · unfold gost_ec_sign
    rw [if_pos hlen]
  · intro hg hpub hr0 hs0 hrq hsq
    unfold gost_ec_verify
    rw [hg, hpub]
    dsimp only
    rw [if_neg (by simp), if_neg (by simp [hr0, hs0]; omega), if_pos hlen]

/-- C7 witness: the assertion behaviour at a 33-byte digest on the order-5
group, with an in-range signature for the verifier side. -/
theorem wrong_length_assertion_inst :
    (gost_ec_sign 5 xc5 (List.replicate 33 0) skey5 []).1 = SignResult.abortAssert ∧
    (gost_ec_verify 5 xc5 (List.replicate 33 0) 1 1 vkey5).1 = VerifyResult.abortAssert :=
  ⟨(wrong_length_assertion 5 xc5 (List.replicate 33 0) skey5 vkey5 [] 2 1 1
      (by decide)).1,
   (wrong_length_assertion 5 xc5 (List.replicate 33 0) skey5 vkey5 [] 2 1 1
      (by decide)).2 rfl rfl (by decide) (by decide) (by decide) (by decide)⟩

/-- C10: neither `gost_ec_sign` nor `gost_ec_verify` modifies the key
object passed to it — on every path the key comes back exactly as it went
in. -/
theorem sign_verify_preserve_key (q : Nat) (xc : ZMod q → Nat)
    (dgst : List Nat) (key : ECKey q) (draws : List Nat) (r s : Nat) :
    (gost_ec_sign q xc dgst key draws).2 = key ∧
    (gost_ec_verify q xc dgst r s key).2 = key := by
  constructor
  · unfold gost_ec_sign
    repeat' split
    all_goals first
      | rfl
      | apply signLoop_key
  · unfold gost_ec_verify
    repeat' split
    all_goals rfl

/-- The keygen draw loop only ever returns a nonzero scalar. -/
theorem drawNonzero_some (draws : List Nat) (d : Nat)
    (h : drawNonzero draws = some d) : d ≠ 0 := by
  induction draws with
  | nil => exact absurd h (by simp [drawNonzero])
  | cons k rest ih =>
    unfold drawNonzero at h
    split_ifs at h with h0
    · exact ih h
    · injection h with h1
      subst h1
      exact h0

/-- On a key with a group and a private scalar, a successful point
multiplication makes `gost_ec_compute_public` store `d·G`. -/
theorem gost_ec_compute_public_true (q : Nat) (key : ECKey q) (d : Nat)
    (hg : key.hasGroup = true) (hp : key.priv = some d) :
    gost_ec_compute_public q true key
      = (true, { key with pub := some ((d : Nat) : ZMod q) }) := by
  unfold gost_ec_compute_public
  rw [hg, hp]
  dsimp only
  rw [if_neg (by simp), if_neg (by simp)]

/-- On a key with a group and a private scalar, a failing point
multiplication makes `gost_ec_compute_public` report failure and store
nothing. -/
theorem gost_ec_compute_public_false (q : Nat) (key : ECKey q) (d : Nat)
    (hg : key.hasGroup = true) (hp : key.priv = some d) :
    gost_ec_compute_public q false key = (false, key) := by
  unfold gost_ec_compute_public
  rw [hg, hp]
  dsimp only
  rw [if_neg (by simp), if_pos (by simp)]

/-- When the draw loop succeeds, `gost_ec_keygen` is: store the new private
scalar, then derive the public point from the updated key. -/
theorem gost_ec_keygen_eq (q : Nat) (mulOk : Bool) (key : ECKey q)
    (draws : List Nat) (d : Nat)
    (hg : key.hasGroup = true) (hd : drawNonzero draws = some d) :
    gost_ec_keygen q mulOk key draws
      = gost_ec_compute_public q mulOk { key with priv := some d } := by
  unfold gost_ec_keygen
  rw [hd, if_neg (not_not_intro (by simp [hg]))]

/-- C8: whenever `gost_ec_keygen` succeeds, the stored private scalar is
nonzero (zero draws are redrawn, never returned), the stored public point
is `d·G` for that scalar, and recomputing the public point with
`gost_ec_compute_public` from the stored key reproduces the key exactly. -/
theorem gost_ec_keygen_sound (q : Nat) (mulOk : Bool) (key : ECKey q)
    (draws : List Nat)
    (h : (gost_ec_keygen q mulOk key draws).1 = true) :
    ∃ d, d ≠ 0 ∧ (gost_ec_keygen q mulOk key draws).2.priv = some d ∧
      (gost_ec_keygen q mulOk key draws).2.pub = some ((d : Nat) : ZMod q) ∧
      (gost_ec_compute_public q true (gost_ec_keygen q mulOk key draws).2).2
        = (gost_ec_keygen q mulOk key draws).2 := by
  by_cases hg : key.hasGroup = true
  · cases hd : drawNonzero draws with
    | none =>
      exfalso
      unfold gost_ec_keygen at h
      rw [hd, if_neg (not_not_intro (by simp [hg]))] at h
      exact absurd h (by simp)
    | some d =>
      rw [gost_ec_keygen_eq q mulOk key draws d hg hd] at h ⊢
      cases mulOk with
      | false =>
        rw [gost_ec_compute_public_false q { key with priv := some d } d hg rfl] at h
        exact absurd h (by simp)
      | true =>
        rw [gost_ec_compute_public_true q { key with priv := some d } d hg rfl] at h ⊢
        refine ⟨d, drawNonzero_some draws d hd, rfl, rfl, ?_⟩
        rw [gost_ec_compute_public_true q
          { key with priv := some d, pub := some ((d : Nat) : ZMod q) } d hg rfl]
  · exfalso
    unfold gost_ec_keygen at h
    rw [if_pos (by simpa using hg)] at h
    exact absurd h (by simp)

/-- C8 witness: key generation with draws `[0, 3]` on the order-5 group
redraws past the zero and stores scalar 3 with public point `3·G`. -/
theorem gost_ec_keygen_sound_inst :
    ∃ d, d ≠ 0 ∧ (gost_ec_keygen 5 true gkey5 [0, 3]).2.priv = some d ∧
      (gost_ec_keygen 5 true gkey5 [0, 3]).2.pub = some ((d : Nat) : ZMod 5) ∧
      (gost_ec_compute_public 5 true (gost_ec_keygen 5 true gkey5 [0, 3]).2).2
        = (gost_ec_keygen 5 true gkey5 [0, 3]).2 :=
  gost_ec_keygen_sound 5 true gkey5 [0, 3] (by decide)

/-- C9: key generation is not atomic on error — when the private scalar has
been drawn and stored but the public-point derivation fails, `gost_ec_keygen`
reports failure while the key keeps the newly stored private scalar and its
old, unmatched public point. -/
theorem gost_ec_keygen_not_atomic (q : Nat) (key : ECKey q)
    (draws : List Nat) (d : Nat)
    (hg : key.hasGroup = true) (hd : drawNonzero draws = some d) :
    (gost_ec_keygen q false key draws).1 = false ∧
    (gost_ec_keygen q false key draws).2.priv = some d ∧
    (gost_ec_keygen q false key draws).2.pub = key.pub := by
  rw [gost_ec_keygen_eq q false key draws d hg hd,
    gost_ec_compute_public_false q { key with priv := some d } d hg rfl]
  exact ⟨rfl, rfl, rfl⟩

/-- C9 witness: with a failing point multiplication, keygen on `gkey5`
(old scalar 4, old public point `1·G`) leaves the key with new scalar 3 and
the stale public point. -/
theorem gost_ec_keygen_not_atomic_inst :
    (gost_ec_keygen 5 false gkey5 [0, 3]).1 = false ∧
    (gost_ec_keygen 5 false gkey5 [0, 3]).2.priv = some 3 ∧
    (gost_ec_keygen 5 false gkey5 [0, 3]).2.pub = gkey5.pub :=
  gost_ec_keygen_not_atomic 5 gkey5 [0, 3] 3 rfl (by decide)

/-- C2 counterexample: a signature with `s` equal to the group order passes
the range check (the comparison `BN_cmp(s, order) >= 1` only rejects
strictly greater values) and reaches the verification equation, ending in a
signature mismatch instead of the distinguished range error. -/
theorem verify_s_eq_order_not_range_error :
    (gost_ec_verify 5 xc5 dgst32 1 5 vkey5).1 = VerifyResult.err GostErr.sigMismatch ∧
    (gost_ec_verify 5 xc5 dgst32 1 5 vkey5).1
      ≠ VerifyResult.err GostErr.sigPartsGreaterThanQ := by
  decide

/-- C2 amended: before any digest processing, `gost_ec_verify` returns the
distinguished range error exactly when `r` or `s` is zero or strictly
greater than the order; values equal to the order pass the check. -/
theorem verify_range_check_iff (q : Nat) (xc : ZMod q → Nat) (dgst : List Nat)
    (key : ECKey q) (Qd : ZMod q) (r s : Nat)
    (hg : key.hasGroup = true) (hpub : key.pub = some Qd) :
    ((gost_ec_verify q xc dgst r s key).1
        = VerifyResult.err GostErr.sigPartsGreaterThanQ
      ↔ (s = 0 ∨ r = 0 ∨ s > q ∨ r > q)) := by
  unfold gost_ec_verify
  rw [hg, hpub]
  dsimp only
  rw [if_neg (by simp)]
  by_cases hc : s = 0 ∨ r = 0 ∨ s > q ∨ r > q
  · rw [if_pos hc]
    simpa using hc
  · rw [if_neg hc]
    simp only [hc, iff_false]
    by_cases hlen : dgst.length = 32 ∨ dgst.length = 64
    · rw [if_neg (not_not_intro hlen)]
      cases he : verify_digest_to_e q dgst with
      | error g =>
        have hge := verify_digest_to_e_error q dgst g he
        subst hge
        simp
      | ok e =>
        dsimp only
        cases hv : modInverse e q with
        | none => simp
        | some v =>
          dsimp only
          split_ifs <;> simp
    · rw [if_pos hlen]
      simp

/-- C2 witness: the range-check characterization instantiated at the
documented scenario `r = 0`, `s = 1` on the order-5 group. -/
theorem verify_range_check_iff_inst :
    ((gost_ec_verify 5 xc5 dgst32 0 1 vkey5).1
        = VerifyResult.err GostErr.sigPartsGreaterThanQ
      ↔ (1 = 0 ∨ 0 = 0 ∨ 1 > 5 ∨ 0 > 5)) :=
  verify_range_check_iff 5 xc5 dgst32 vkey5 2 0 1 rfl rfl

/-- C3: a signature returned by `gost_ec_sign` satisfies
`r = x(k·G) mod q` and `s = (r·d + k·e) mod q` for one of the supplied
draws `k`, with both parts in `[1, q-1]`; and a draw producing a zero `r`
or a zero `s` makes the loop retry with the next draw. -/
theorem gost_ec_sign_output_spec :
    (∀ (q : Nat) (xc : ZMod q → Nat) (dgst : List Nat) (key : ECKey q)
        (draws : List Nat) (d r s : Nat),
      key.priv = some d →
      (gost_ec_sign q xc dgst key draws).1 = SignResult.ok r s →
      ∃ e k, sign_digest_to_e q dgst = Except.ok e ∧ k ∈ draws ∧
        r = xc ((k : Nat) : ZMod q) % q ∧ s = (r * d + k * e) % q ∧
        1 ≤ r ∧ r < q ∧ 1 ≤ s ∧ s < q) ∧
    (∀ (q : Nat) (xc : ZMod q → Nat) (d e : Nat) (key : ECKey q) (k : Nat)
        (rest : List Nat),
      ((k : Nat) : ZMod q) ≠ 0 →
      (signR q xc k = 0 ∨ signS q d e k (signR q xc k) = 0) →
      signLoop q xc d e key (k :: rest) = signLoop q xc d e key rest) := by
  constructor
  · intro q xc dgst key draws d r s hpriv hsig
    obtain ⟨hlen, d', e, hpriv', hde, hloop⟩ :=
      gost_ec_sign_ok_elim q xc dgst key draws r s hsig
    rw [hpriv] at hpriv'
    injection hpriv' with hd'
    subst hd'
    obtain ⟨hq0, he0, heq⟩ := sign_digest_to_e_ok q dgst e hde
    obtain ⟨k, hmem, hkz, hr, hr0, hrq, hs, hs0, hsq⟩ :=
      signLoop_ok q xc d e key hq0 draws r s hloop
    refine ⟨e, k, hde, hmem, ?_, ?_, by omega, hrq, by omega, hsq⟩
    · rw [hr]
      unfold signR
      rw [blind_cast]
    · rw [hs, signS_mod]
  · intro q xc d e key k rest hkz hcond
    have hC : ¬ ((blind q k : Nat) : ZMod q) = 0 := by
      rw [blind_cast]
      exact hkz
    simp only [signLoop]
    rw [if_neg hC]
    rcases hcond with h1 | h1
    · rw [if_pos h1]
    · by_cases hr0 : signR q xc k = 0
      · rw [if_pos hr0]
      · rw [if_neg hr0, if_pos h1]

/-- C3 witness: the output characterization instantiated on the order-5
group, scalar 2, all-zero digest and the single draw 3 (which yields the
signature (3, 4)). -/
theorem gost_ec_sign_output_spec_inst :
    ∃ e k, sign_digest_to_e 5 dgst32 = Except.ok e ∧ k ∈ [3] ∧
      3 = xc5 ((k : Nat) : ZMod 5) % 5 ∧ 4 = (3 * 2 + k * e) % 5 ∧
      1 ≤ 3 ∧ 3 < 5 ∧ 1 ≤ 4 ∧ 4 < 5 :=
  gost_ec_sign_output_spec.1 5 xc5 dgst32 skey5 [3] 2 3 4 rfl (by decide)

/-- C4 counterexample: an in-range signature for which the recomputed point
`z1·G + z2·Q` is the point at infinity makes `gost_ec_verify` end in an
internal EC error — neither Valid nor the signature-mismatch outcome, which
the claim says are the only possibilities for in-range signatures. -/
theorem verify_in_range_internal_error :
    (1 ≤ 1 ∧ 1 < 5 ∧ 1 ≤ 2 ∧ 2 < 5) ∧
    (gost_ec_verify 5 xc5 dgst32 1 2 vkey5).1 = VerifyResult.err GostErr.ecLib ∧
    (gost_ec_verify 5 xc5 dgst32 1 2 vkey5).1 ≠ VerifyResult.valid ∧
    (gost_ec_verify 5 xc5 dgst32 1 2 vkey5).1
      ≠ VerifyResult.err GostErr.sigMismatch := by
  decide

/-- C4 amended: for an in-range signature, a valid digest, and a public
point, `gost_ec_verify` computes `v = e⁻¹ mod q`, `z1 = s·v mod q`,
`z2 = (q-r)·v mod q` and the point `C = z1·G + z2·Q`; provided `C` is not
the point at infinity, the verdict is Valid exactly when `x(C) mod q = r`,
and the distinguished signature-mismatch outcome otherwise; when `C` is the
point at infinity the function instead reports an internal EC error. -/
theorem gost_ec_verify_equation (q : Nat) (xc : ZMod q → Nat) (dgst : List Nat)
    (key : ECKey q) (Qd : ZMod q) (r s e v : Nat)
    (hg : key.hasGroup = true) (hpub : key.pub = some Qd)
    (hr0 : 1 ≤ r) (hrq : r < q) (hs0 : 1 ≤ s) (hsq : s < q)
    (hlen : dgst.length = 32 ∨ dgst.length = 64)
    (he : verify_digest_to_e q dgst = Except.ok e)
    (hv : modInverse e q = some v) :
    (verifyCd q r s v Qd ≠ 0 →
      ((gost_ec_verify q xc dgst r s key).1 = VerifyResult.valid ↔
        xc (verifyCd q r s v Qd) % q = r) ∧
      (xc (verifyCd q r s v Qd) % q ≠ r →
        (gost_ec_verify q xc dgst r s key).1
          = VerifyResult.err GostErr.sigMismatch)) ∧
    (verifyCd q r s v Qd = 0 →
      (gost_ec_verify q xc dgst r s key).1 = VerifyResult.err GostErr.ecLib) := by
  have hrun := gost_ec_verify_run q xc dgst key Qd r s e v hg hpub
    (by omega) (by omega) (by omega) (by omega) hlen he hv
  constructor
  · intro hCd
    rw [hrun, if_neg hCd]
    constructor
    · constructor
      · intro hval
        by_cases hR : xc (verifyCd q r s v Qd) % q ≠ r
        · rw [if_pos hR] at hval
          exact absurd hval (by simp)
        · exact not_not.mp hR
      · intro hR
        rw [if_neg (not_not_intro hR)]
    · intro hR
      rw [if_pos hR]
  · intro hCd
    rw [hrun, if_pos hCd]

/-- C4 witness: the verification-equation characterization instantiated at
the honest signature (3, 4) over the order-5 group, where the recomputed
point is finite. -/
theorem gost_ec_verify_equation_inst :
    ((gost_ec_verify 5 xc5 dgst32 3 4 vkey5).1 = VerifyResult.valid ↔
      xc5 (verifyCd 5 3 4 1 2) % 5 = 3) :=
  ((gost_ec_verify_equation 5 xc5 dgst32 vkey5 2 3 4 1 1 rfl rfl
      (by decide) (by decide) (by decide) (by decide) (by decide) rfl
      (by decide)).1 (by decide)).1

/-- C1: a signature produced by `gost_ec_sign` over a valid digest with a
private scalar in `[1, q-1]` verifies under `gost_ec_verify` with the same
digest and the matching public point `d·G` (round trip), for every group of
prime order. -/
theorem gost_ec_sign_verify_roundtrip (q : Nat) (xc : ZMod q → Nat)
    (dgst : List Nat) (skey vkey : ECKey q) (draws : List Nat) (d r s : Nat)
    (hprime : Nat.Prime q)
    (hsg : skey.hasGroup = true) (hsd : skey.priv = some d)
    (hd1 : 1 ≤ d) (hdq : d < q)
    (hvg : vkey.hasGroup = true) (hvpub : vkey.pub = some ((d : Nat) : ZMod q))
    (hsig : (gost_ec_sign q xc dgst skey draws).1 = SignResult.ok r s) :
    (gost_ec_verify q xc dgst r s vkey).1 = VerifyResult.valid := by
  have hq2 : 2 ≤ q := hprime.two_le
  obtain ⟨hlen, d', e, hpriv', hde, hloop⟩ :=
    gost_ec_sign_ok_elim q xc dgst skey draws r s hsig
  rw [hsd] at hpriv'
  injection hpriv' with hd'
  subst hd'
  obtain ⟨hq0, he0, heq'⟩ := sign_digest_to_e_ok q dgst e hde
  have heq : e < q := heq' hq2
  obtain ⟨k, hmem, hkz, hr, hr0, hrq, hs, hs0, hsq⟩ :=
    signLoop_ok q xc d e skey hq0 draws r s hloop
  have h64 : dgst.length ≤ 64 := by rcases hlen with h | h <;> omega
  have hev : verify_digest_to_e q dgst = Except.ok e := by
    rw [← digest_agree q dgst h64]
    exact hde
  have hcop : Nat.Coprime e q := by
    have hnd : ¬ q ∣ e := by
      intro hdvd
      have := Nat.le_of_dvd (Nat.pos_of_ne_zero he0) hdvd
      omega
    exact Nat.coprime_comm.mp ((Nat.Prime.coprime_iff_not_dvd hprime).mpr hnd)
  obtain ⟨v, hv, hvmod⟩ := modInverse_exists e q hq2 hcop
  have hrun := gost_ec_verify_run q xc dgst vkey ((d : Nat) : ZMod q) r s e v
    hvg hvpub (by omega) (by omega) (by omega) (by omega) hlen hev hv
  have hxcr : xc ((k : Nat) : ZMod q) % q = r := by
    rw [hr]
    unfold signR
    rw [blind_cast]
  rw [hrun, hs, verifyCd_eq q d r e v k (le_of_lt hrq) hvmod, if_neg hkz,
    if_neg (not_not_intro hxcr)]

/-- C1 witness: the round trip on the order-5 group with scalar 2, all-zero
digest and draw 3, which signs to (3, 4) and verifies. -/
theorem gost_ec_sign_verify_roundtrip_inst :
    (gost_ec_verify 5 xc5 dgst32 3 4 vkey5).1 = VerifyResult.valid :=
  gost_ec_sign_verify_roundtrip 5 xc5 dgst32 skey5 vkey5 [3] 2 3 4
    (by norm_num) rfl rfl (by decide) (by decide) rfl (by decide) (by decide)
